import Mathlib

/-!
Verification of the aggregation-and-rendering pipeline of `github-lang-rank`
(`src/main.go`).  Go maps are embedded as association lists, Go `int64` and
`int` as `Int` (no claim here depends on 64-bit wraparound, so modular
reduction is omitted), and the fallible renderer as `Except`.  Each section
names the Go function it embeds.
-/

namespace LangRank

/-- Mirrors the Go struct `langStat` (src/main.go lines 25-28): one ranked
entry, a language name and its total byte count (`int64`, embedded as `Int`). -/
structure langStat where
  lang  : String
  bytes : Int
deriving Repr, DecidableEq

/-- Mirrors the Go struct `repo` (src/main.go lines 18-23), keeping the fields
the pipeline consults. -/
structure Repo where
  name     : String
  fullName : String
  fork     : Bool
  archived : Bool
deriving Repr, DecidableEq

/-- The comparison closure passed to `sort.Slice` in `rankLanguages`
(src/main.go lines 184-189): `a` comes strictly before `b` when it has more
bytes, or equal bytes and a lexicographically smaller name.  Go compares
strings byte-lexicographically; on UTF-8 that coincides with the
codepoint-lexicographic order used by Lean's `String` order. -/
def statLess (a b : langStat) : Bool :=
  if a.bytes = b.bytes then decide (a.lang < b.lang) else decide (b.bytes < a.bytes)

/-- Ordered insertion with respect to a boolean strict comparator. -/
def insertBy {α : Type} (less : α → α → Bool) (x : α) : List α → List α
  | [] => [x]
  | y :: ys => if less x y then x :: y :: ys else y :: insertBy less x ys

/-- Insertion sort with respect to a boolean strict comparator.  Go's
`sort.Slice` is an unstable sort, but for the total, antisymmetric comparators
used in this program every correct sort returns the same list, so insertion
sort is a faithful embedding (theorem `rankLanguages_strict_total_deterministic`
makes the uniqueness precise). -/
def sortBy {α : Type} (less : α → α → Bool) (l : List α) : List α :=
  l.foldr (insertBy less) []

/-- Converts one association-list entry of the aggregate map into a `langStat`,
as the append loop of `rankLanguages` does (src/main.go lines 181-183). -/
def toStat (p : String × Int) : langStat :=
  ⟨p.1, p.2⟩

/-- Embeds `rankLanguages` (src/main.go lines 179-191): turn the aggregate
map (association list) into `langStat`s and sort them with `statLess`. -/
def rankLanguages (total : List (String × Int)) : List langStat :=
  sortBy statLess (total.map toStat)

/-- The strict "comes before" order the spec describes for ranked output:
higher byte count first, ties broken by ascending name. -/
def statStrictBefore (a b : langStat) : Prop :=
  b.bytes < a.bytes ∨ (a.bytes = b.bytes ∧ a.lang < b.lang)

theorem statLess_false_iff (x y : langStat) :
    statLess x y = false ↔ x.bytes < y.bytes ∨ (x.bytes = y.bytes ∧ ¬ x.lang < y.lang) := by
  unfold statLess
  by_cases hb : x.bytes = y.bytes
  · rw [if_pos hb]
    simp [hb]
  · rw [if_neg hb]
    simp only [decide_eq_false_iff_not, not_lt]
    constructor
    · intro hle
      exact Or.inl (lt_of_le_of_ne hle hb)
    · rintro (hlt | ⟨he, -⟩)
      · exact le_of_lt hlt
      · exact absurd he hb

theorem statLe_trans (a b c : langStat)
    (h1 : statLess b a = false) (h2 : statLess c b = false) : statLess c a = false := by
  rw [statLess_false_iff] at h1 h2 ⊢
  rcases h1 with h1 | ⟨h1e, h1l⟩
  · rcases h2 with h2 | ⟨h2e, h2l⟩
    · exact Or.inl (by omega)
    · exact Or.inl (by omega)
  · rcases h2 with h2 | ⟨h2e, h2l⟩
    · exact Or.inl (by omega)
    · exact Or.inr ⟨h2e.trans h1e,
        not_lt.2 (le_trans (le_of_not_lt h1l) (le_of_not_lt h2l))⟩

theorem statLess_asymm (a b : langStat) (h : statLess a b = true) : statLess b a = false := by
  rw [statLess_false_iff]
  unfold statLess at h
  by_cases hb : a.bytes = b.bytes
  · rw [if_pos hb] at h
    exact Or.inr ⟨hb.symm, fun hlt => absurd (of_decide_eq_true h) (lt_asymm hlt)⟩
  · rw [if_neg hb] at h
    exact Or.inl (of_decide_eq_true h)

theorem statLe_antisymm (a b : langStat)
    (h1 : statLess b a = false) (h2 : statLess a b = false) : a = b := by
  rw [statLess_false_iff] at h1 h2
  have hbytes : a.bytes = b.bytes := by omega
  have hlang : a.lang = b.lang := by
    rcases h1 with h1 | ⟨_, h1l⟩
    · omega
    · rcases h2 with h2 | ⟨_, h2l⟩
      · omega
      · exact le_antisymm (le_of_not_lt h1l) (le_of_not_lt h2l)
  cases a
  cases b
  simp_all

theorem insertBy_perm {α : Type} (less : α → α → Bool) (x : α) (l : List α) :
    (insertBy less x l).Perm (x :: l) := by
  induction l with
  | nil => exact List.Perm.refl _
  | cons y ys ih =>
    unfold insertBy
    by_cases h : less x y
    · rw [if_pos h]
    · rw [if_neg h]
      exact (ih.cons y).trans (List.Perm.swap x y ys)

theorem sortBy_perm {α : Type} (less : α → α → Bool) (l : List α) :
    (sortBy less l).Perm l := by
  induction l with
  | nil => exact List.Perm.refl _
  | cons x xs ih => exact (insertBy_perm less x (sortBy less xs)).trans (ih.cons x)

theorem pairwise_insertBy {α : Type} (less : α → α → Bool)
    (hasymm : ∀ a b, less a b = true → less b a = false)
    (htrans : ∀ a b c, less b a = false → less c b = false → less c a = false)
    (x : α) (l : List α) (hl : l.Pairwise (fun a b => less b a = false)) :
    (insertBy less x l).Pairwise (fun a b => less b a = false) := by
  induction l with
  | nil => simp [insertBy]
  | cons y ys ih =>
    rcases List.pairwise_cons.1 hl with ⟨hy, hys⟩
    unfold insertBy
    by_cases h : less x y
    · rw [if_pos h]
      refine List.pairwise_cons.2 ⟨?_, hl⟩
      intro z hz
      rcases List.mem_cons.1 hz with rfl | hz
      · exact hasymm x z h
      · exact htrans x y z (hasymm x y h) (hy z hz)
    · rw [if_neg h]
      refine List.pairwise_cons.2 ⟨?_, ih hys⟩
      intro z hz
      have hz' : z = x ∨ z ∈ ys := by
        have := (insertBy_perm less x ys).mem_iff.1 hz
        simpa using this
      rcases hz' with rfl | hz'
      · exact eq_false_of_ne_true h
      · exact hy z hz'

theorem pairwise_sortBy {α : Type} (less : α → α → Bool)
    (hasymm : ∀ a b, less a b = true → less b a = false)
    (htrans : ∀ a b c, less b a = false → less c b = false → less c a = false)
    (l : List α) :
    (sortBy less l).Pairwise (fun a b => less b a = false) := by
  induction l with
  | nil => simp [sortBy]
  | cons x xs ih => exact pairwise_insertBy less hasymm htrans x (sortBy less xs) ih

theorem sortBy_stat_eq_of_perm (l₁ l₂ : List langStat) (h : l₁.Perm l₂) :
    sortBy statLess l₁ = sortBy statLess l₂ := by
  haveI : IsAntisymm langStat (fun a b => statLess b a = false) :=
    ⟨fun a b h1 h2 => statLe_antisymm a b h1 h2⟩
  have hp : (sortBy statLess l₁).Perm (sortBy statLess l₂) :=
    (sortBy_perm statLess l₁).trans (h.trans (sortBy_perm statLess l₂).symm)
  have hs1 : List.Sorted (fun a b => statLess b a = false) (sortBy statLess l₁) :=
    pairwise_sortBy statLess statLess_asymm statLe_trans l₁
  have hs2 : List.Sorted (fun a b => statLess b a = false) (sortBy statLess l₂) :=
    pairwise_sortBy statLess statLess_asymm statLe_trans l₂
  exact List.eq_of_perm_of_sorted hp hs1 hs2

/-- C1: for every language-to-bytes mapping (association list with pairwise
distinct language names), `rankLanguages` is sorted by the strict total order
"more bytes first, ties by lexicographically smaller name", and its result is
the same for any two presentations of the mapping that are permutations of one
another (Go map iteration order is arbitrary). -/
theorem rankLanguages_strict_total_deterministic
    (total : List (String × Int)) (hnd : (total.map Prod.fst).Nodup) :
    (rankLanguages total).Pairwise statStrictBefore
    ∧ ∀ total' : List (String × Int), total.Perm total' →
        rankLanguages total = rankLanguages total' := by
  constructor
  · have hsorted : (rankLanguages total).Pairwise (fun a b => statLess b a = false) :=
      pairwise_sortBy statLess statLess_asymm statLe_trans (total.map toStat)
    have hne0 : (total.map toStat).Pairwise (fun a b : langStat => a.lang ≠ b.lang) := by
      rw [List.pairwise_map]
      have hnd' : (total.map Prod.fst).Pairwise (fun a b => a ≠ b) := hnd
      rw [List.pairwise_map] at hnd'
      exact hnd'
    have hperm : ((total.map toStat)).Perm (rankLanguages total) :=
      (sortBy_perm statLess (total.map toStat)).symm
    have hne : (rankLanguages total).Pairwise (fun a b : langStat => a.lang ≠ b.lang) :=
      hne0.perm hperm (fun hab => Ne.symm hab)
    refine (hsorted.and hne).imp ?_
    intro a b hab
    rcases hab with ⟨hle, hnev⟩
    rw [statLess_false_iff] at hle
    rcases hle with h | ⟨heq, hnlt⟩
    · exact Or.inl h
    · exact Or.inr ⟨heq.symm, lt_of_le_of_ne (le_of_not_lt hnlt) hnev⟩
  · intro total' hp
    exact sortBy_stat_eq_of_perm _ _ (hp.map toStat)

/-- Witness for C1 at the concrete mapping `{Go: 300, Python: 100}`: the
ranked output is strictly ordered, and presenting the mapping in the opposite
iteration order yields the identical sequence. -/
theorem rankLanguages_strict_total_deterministic_witness :
    (rankLanguages [("Go", 300), ("Python", 100)]).Pairwise statStrictBefore
    ∧ rankLanguages [("Go", 300), ("Python", 100)]
        = rankLanguages [("Python", 100), ("Go", 300)] := by
  have h := rankLanguages_strict_total_deterministic [("Go", 300), ("Python", 100)] (by decide)
  exact ⟨h.1, h.2 [("Python", 100), ("Go", 300)] (List.Perm.swap _ _ _)⟩

/-- The byte-summing accumulation loop used both by `writeSVG` for
`totalBytes` (src/main.go lines 221-224) and by `collapseOthers` for
`otherBytes` (src/main.go lines 386-389). -/
def sumBytes (l : List langStat) : Int :=
  l.foldl (fun acc item => acc + item.bytes) 0

/-- Embeds `collapseOthers` (src/main.go lines 377-394).  `top` is a Go `int`
(possibly non-positive), embedded as `Int`. -/
def collapseOthers (ranked : List langStat) (top : Int) (showOther : Bool) :
    List langStat :=
  if top ≤ 0 ∨ (ranked.length : Int) ≤ top then ranked
  else
    let keep := ranked.take top.toNat
    if !showOther then keep
    else
      let otherBytes := sumBytes (ranked.drop top.toNat)
      if 0 < otherBytes then keep ++ [⟨"Other", otherBytes⟩] else keep

theorem sumBytes_shift (l : List langStat) (acc : Int) :
    l.foldl (fun acc item => acc + item.bytes) acc = acc + sumBytes l := by
  induction l generalizing acc with
  | nil => simp [sumBytes]
  | cons x xs ih =>
    show List.foldl _ (acc + x.bytes) xs = acc + sumBytes (x :: xs)
    rw [ih (acc + x.bytes)]
    show acc + x.bytes + sumBytes xs = acc + List.foldl _ (0 + x.bytes) xs
    rw [ih (0 + x.bytes)]
    ring

theorem sumBytes_append (l₁ l₂ : List langStat) :
    sumBytes (l₁ ++ l₂) = sumBytes l₁ + sumBytes l₂ := by
  show (l₁ ++ l₂).foldl (fun acc item => acc + item.bytes) 0 = _
  rw [List.foldl_append, sumBytes_shift]
  rfl

theorem sumBytes_take_drop (l : List langStat) (n : Nat) :
    sumBytes (l.take n) + sumBytes (l.drop n) = sumBytes l := by
  conv_rhs => rw [← List.take_append_drop n l]
  rw [sumBytes_append]

/-- C3: the Bucketizer contract of `collapseOthers`.  With a positive `top`
smaller than the sequence length it keeps exactly the first `top` entries and,
when the show-other flag is set and the remainder sum is positive, appends one
synthetic "Other" entry carrying that remainder, placed last; when the
remainder sum is zero (or the flag is unset) nothing is appended.  With
`top = 0` or `top` at least the length the sequence passes through unchanged.
The concrete scenario `{Go: 300, Python: 100, TeX: 50, HTML: 10}`, `top = 2`,
show-other set, yields `Go, Python, Other(60)`. -/
theorem collapseOthers_contract :
    (∀ (ranked : List langStat) (top : Int) (showOther : Bool),
        0 < top → top < (ranked.length : Int) →
        collapseOthers ranked top showOther =
          ranked.take top.toNat ++
            (if showOther = true ∧ 0 < sumBytes (ranked.drop top.toNat)
             then [⟨"Other", sumBytes (ranked.drop top.toNat)⟩] else []))
    ∧ (∀ (ranked : List langStat) (top : Int) (showOther : Bool),
        top = 0 ∨ (ranked.length : Int) ≤ top →
        collapseOthers ranked top showOther = ranked)
    ∧ collapseOthers
        (rankLanguages [("Go", 300), ("Python", 100), ("TeX", 50), ("HTML", 10)]) 2 true
        = [⟨"Go", 300⟩, ⟨"Python", 100⟩, ⟨"Other", 60⟩] := by
  refine ⟨?_, ?_, by decide⟩
  · intro ranked top showOther h1 h2
    unfold collapseOthers
    rw [if_neg (by omega)]
    cases showOther with
    | false => simp
    | true =>
      simp only [Bool.not_true, if_neg (by decide : ¬ (false = true)), true_and]
      by_cases ho : 0 < sumBytes (ranked.drop top.toNat)
      · rw [if_pos ho, if_pos ho]
      · rw [if_neg ho, if_neg ho, List.append_nil]
  · intro ranked top showOther h
    unfold collapseOthers
    rw [if_pos (by omega)]

/-- Witness for C3 at the spec's scenario: `top = 2` with show-other set on
the four-entry ranking keeps `Go, Python` and appends `Other(60)`; `top = 0`
leaves the ranking unchanged. -/
theorem collapseOthers_contract_witness :
    collapseOthers [⟨"Go", 300⟩, ⟨"Python", 100⟩, ⟨"TeX", 50⟩, ⟨"HTML", 10⟩] 2 true
      = [⟨"Go", 300⟩, ⟨"Python", 100⟩] ++
          (if (true : Bool) = true ∧
              0 < sumBytes ([⟨"Go", 300⟩, ⟨"Python", 100⟩, ⟨"TeX", 50⟩,
                (⟨"HTML", 10⟩ : langStat)].drop (Int.toNat 2))
           then [⟨"Other",
              sumBytes ([⟨"Go", 300⟩, ⟨"Python", 100⟩, ⟨"TeX", 50⟩,
                (⟨"HTML", 10⟩ : langStat)].drop (Int.toNat 2))⟩] else [])
    ∧ collapseOthers [⟨"Go", 300⟩, ⟨"Python", 100⟩] 0 true
      = [⟨"Go", 300⟩, ⟨"Python", 100⟩] := by
  constructor
  · exact collapseOthers_contract.1
      [⟨"Go", 300⟩, ⟨"Python", 100⟩, ⟨"TeX", 50⟩, ⟨"HTML", 10⟩] 2 true
      (by decide) (by decide)
  · exact collapseOthers_contract.2.1 [⟨"Go", 300⟩, ⟨"Python", 100⟩] 0 true (Or.inl rfl)

/-- C4: when `collapseOthers` appends an "Other" entry (positive `top` below
the length, show-other set, positive remainder), the bytes of the kept entries
plus the bytes of the "Other" entry equal the bytes of the pre-bucketized
sequence: the collapse loses no bytes. -/
theorem collapseOthers_conserves_bytes
    (ranked : List langStat) (top : Int)
    (h1 : 0 < top) (h2 : top < (ranked.length : Int))
    (h3 : 0 < sumBytes (ranked.drop top.toNat)) :
    collapseOthers ranked top true =
      ranked.take top.toNat ++ [⟨"Other", sumBytes (ranked.drop top.toNat)⟩]
    ∧ sumBytes (ranked.take top.toNat) + sumBytes (ranked.drop top.toNat)
        = sumBytes ranked
    ∧ sumBytes (collapseOthers ranked top true) = sumBytes ranked := by
  have heq := collapseOthers_contract.1 ranked top true h1 h2
  rw [if_pos ⟨rfl, h3⟩] at heq
  refine ⟨heq, sumBytes_take_drop ranked top.toNat, ?_⟩
  rw [heq, sumBytes_append]
  have : sumBytes [⟨"Other", sumBytes (ranked.drop top.toNat)⟩]
      = sumBytes (ranked.drop top.toNat) := by
    simp [sumBytes]
  rw [this, sumBytes_take_drop]

/-- Witness for C4 at the scenario input: collapsing `{Go: 300, Python: 100,
TeX: 50, HTML: 10}` at `top = 2` conserves the 460-byte total. -/
theorem collapseOthers_conserves_bytes_witness :
    sumBytes (collapseOthers [⟨"Go", 300⟩, ⟨"Python", 100⟩, ⟨"TeX", 50⟩,
        ⟨"HTML", 10⟩] 2 true)
      = sumBytes [⟨"Go", 300⟩, ⟨"Python", 100⟩, ⟨"TeX", 50⟩, ⟨"HTML", 10⟩] :=
  (collapseOthers_conserves_bytes
    [⟨"Go", 300⟩, ⟨"Python", 100⟩, ⟨"TeX", 50⟩, ⟨"HTML", 10⟩] 2
    (by decide) (by decide) (by decide)).2.2

/-- First-match association-list lookup: the read side of a Go map embedded
as an association list whose keys are kept distinct by `assocSet`. -/
def lookupStr {α : Type} (key : String) : List (String × α) → Option α
  | [] => none
  | (k, v) :: rest => if k = key then some v else lookupStr key rest

/-- Update-or-append association-list write: the Go map assignment
`m[key] = v`. -/
def assocSet {α : Type} (l : List (String × α)) (key : String) (v : α) :
    List (String × α) :=
  match l with
  | [] => [(key, v)]
  | (k, v') :: rest =>
      if k = key then (k, v) :: rest else (k, v') :: assocSet rest key v

/-- ASCII lowercasing of one character: Go's `unicode.ToLower` restricted to
the ASCII range, which is the range this program's exclude terms and color
table keys use. -/
def lowerChar (c : Char) : Char :=
  if 'A' ≤ c ∧ c ≤ 'Z' then Char.ofNat (c.toNat + 32) else c

/-- Embeds `strings.ToLower` (ASCII range) as a structurally recursive map so
that concrete instances reduce in the kernel. -/
def lowerStr (s : String) : String :=
  ⟨s.data.map lowerChar⟩

/-- The `normalized` map built by `applyExcludes` (src/main.go lines 554-557):
maps the lowercased exclude term to the term as supplied, later duplicates
overwriting earlier ones. -/
def buildNormalized (excludes : List String) : List (String × String) :=
  excludes.foldl (fun acc item => assocSet acc (lowerStr item) item) []

/-- The comparator of Go's `sort.Strings`: plain ascending string order. -/
def strLess (a b : String) : Bool :=
  decide (a < b)

/-- Embeds `applyExcludes` (src/main.go lines 550-567): with no exclude terms
the aggregate passes through and nothing is reported; otherwise entries whose
lowercased name is a key of the normalized term map are removed from the
aggregate, the stored term is reported once per removed entry, and the report
is sorted with `sort.Strings`.  (Go iterates the `total` map in arbitrary
order and deletes in place; removal commutes with iteration and the report is
sorted afterwards, so iterating in list order is faithful.) -/
def applyExcludes (total : List (String × Int)) (excludes : List String) :
    List (String × Int) × List String :=
  if excludes.length = 0 then (total, [])
  else
    let normalized := buildNormalized excludes
    let removedRaw := total.filterMap (fun p => lookupStr (lowerStr p.1) normalized)
    let remaining := total.filter (fun p => (lookupStr (lowerStr p.1) normalized).isNone)
    (remaining, sortBy strLess removedRaw)

theorem lookup_assocSet {α : Type} (l : List (String × α)) (k key : String) (v : α) :
    lookupStr key (assocSet l k v) = if k = key then some v else lookupStr key l := by
  induction l with
  | nil => rfl
  | cons p rest ih =>
    obtain ⟨k', v'⟩ := p
    unfold assocSet
    by_cases h1 : k' = k
    · subst h1
      rw [if_pos rfl]
      by_cases h2 : k' = key
      · rw [lookupStr, if_pos h2, if_pos h2]
      · rw [lookupStr, if_neg h2, if_neg h2, lookupStr, if_neg h2]
    · rw [if_neg h1]
      by_cases h2 : k' = key
      · have h3 : ¬ k = key := fun e => h1 (h2.trans e.symm)
        rw [lookupStr, if_pos h2, if_neg h3, lookupStr, if_pos h2]
      · rw [lookupStr, if_neg h2, ih, lookupStr, if_neg h2]

theorem lookup_buildNorm_gen (excludes : List String)
    (acc : List (String × String)) (key : String) :
    (lookupStr key (excludes.foldl (fun acc item => assocSet acc (lowerStr item) item) acc)
        = none
      ↔ (lookupStr key acc = none ∧ ∀ t ∈ excludes, lowerStr t ≠ key))
    ∧ ∀ t, lookupStr key
          (excludes.foldl (fun acc item => assocSet acc (lowerStr item) item) acc)
        = some t →
        (t ∈ excludes ∧ lowerStr t = key) ∨ lookupStr key acc = some t := by
  induction excludes generalizing acc with
  | nil => simp
  | cons e ex ih =>
    rw [List.foldl_cons]
    have hstep : lookupStr key (assocSet acc (lowerStr e) e)
        = if (lowerStr e) = key then some e else lookupStr key acc :=
      lookup_assocSet acc (lowerStr e) key e
    constructor
    · rw [(ih (assocSet acc (lowerStr e) e)).1, hstep]
      by_cases he : (lowerStr e) = key
      · rw [if_pos he]
        constructor
        · intro h
          exact absurd h.1 (by simp)
        · intro h
          exact absurd he (h.2 e (List.mem_cons_self e ex))
      · rw [if_neg he]
        constructor
        · intro h
          refine ⟨h.1, ?_⟩
          intro t ht
          rcases List.mem_cons.1 ht with rfl | ht'
          · exact he
          · exact h.2 t ht'
        · intro h
          exact ⟨h.1, fun t ht => h.2 t (List.mem_cons_of_mem e ht)⟩
    · intro t h
      rcases (ih (assocSet acc (lowerStr e) e)).2 t h with ⟨ht, hl⟩ | hacc
      · exact Or.inl ⟨List.mem_cons_of_mem e ht, hl⟩
      · rw [hstep] at hacc
        by_cases he : (lowerStr e) = key
        · rw [if_pos he] at hacc
          have : e = t := by injection hacc
          subst this
          exact Or.inl ⟨List.mem_cons_self e ex, he⟩
        · rw [if_neg he] at hacc
          exact Or.inr hacc

theorem lookupNorm_none_iff (excludes : List String) (key : String) :
    lookupStr key (buildNormalized excludes) = none
      ↔ ∀ t ∈ excludes, lowerStr t ≠ key := by
  have h := (lookup_buildNorm_gen excludes [] key).1
  unfold buildNormalized
  rw [h]
  simp [lookupStr]

theorem lookupNorm_some (excludes : List String) (key t : String)
    (h : lookupStr key (buildNormalized excludes) = some t) :
    t ∈ excludes ∧ lowerStr t = key := by
  rcases (lookup_buildNorm_gen excludes [] key).2 t h with hgood | hbad
  · exact hgood
  · exact absurd hbad (by simp [lookupStr])

theorem lookupNorm_isNone_eq (excludes : List String) (key : String) :
    (lookupStr key (buildNormalized excludes)).isNone
      = !(excludes.any (fun t => lowerStr t == key)) := by
  cases hl : lookupStr key (buildNormalized excludes) with
  | none =>
    have hall := (lookupNorm_none_iff excludes key).1 hl
    have hany : excludes.any (fun t => lowerStr t == key) = false := by
      rw [List.any_eq_false]
      intro t ht
      simp only [beq_iff_eq]
      exact hall t ht
    rw [hany]
    rfl
  | some t =>
    have := lookupNorm_some excludes key t hl
    have hany : excludes.any (fun t => lowerStr t == key) = true := by
      rw [List.any_eq_true]
      exact ⟨t, this.1, beq_iff_eq.2 this.2⟩
    rw [hany]
    rfl

theorem lookupNorm_isSome_eq (excludes : List String) (key : String) :
    (lookupStr key (buildNormalized excludes)).isSome
      = excludes.any (fun t => lowerStr t == key) := by
  have h := lookupNorm_isNone_eq excludes key
  cases hl : lookupStr key (buildNormalized excludes) with
  | none =>
    rw [hl] at h
    cases hany : excludes.any (fun t => lowerStr t == key) with
    | false => rfl
    | true =>
      rw [hany] at h
      exact absurd h (by decide)
  | some v =>
    rw [hl] at h
    cases hany : excludes.any (fun t => lowerStr t == key) with
    | false =>
      rw [hany] at h
      simp at h
    | true => rfl

theorem strLess_asymm (a b : String) (h : strLess a b = true) : strLess b a = false := by
  unfold strLess at h ⊢
  exact decide_eq_false (lt_asymm (of_decide_eq_true h))

theorem strLess_trans_neg (a b c : String)
    (h1 : strLess b a = false) (h2 : strLess c b = false) : strLess c a = false := by
  unfold strLess at h1 h2 ⊢
  exact decide_eq_false (not_lt.2 (le_trans (not_lt.1 (of_decide_eq_false h1))
    (not_lt.1 (of_decide_eq_false h2))))

theorem length_filterMap_eq_length_filter {α β : Type} (f : α → Option β) (l : List α) :
    (l.filterMap f).length = (l.filter (fun a => (f a).isSome)).length := by
  induction l with
  | nil => rfl
  | cons x xs ih =>
    rw [List.filterMap_cons, List.filter_cons]
    cases hf : f x with
    | none => simpa [hf] using ih
    | some v => simpa [hf] using ih

/-- Counterexample to C5 as stated: excluding with the term `"tex"` from the
aggregate `{TeX: 50}` removes the entry named `"TeX"`, but the report contains
`"tex"` — the exclude term's casing — not the removed language's original
casing `"TeX"`. -/
theorem applyExcludes_counterexample :
    applyExcludes [("TeX", 50)] ["tex"] = ([], ["tex"])
    ∧ ("tex" : String) ≠ "TeX" := by
  constructor
  · decide
  · decide

/-- C5 (amended): `applyExcludes` removes exactly the entries whose name
matches some exclude term case-insensitively and leaves the rest unchanged in
order; the report holds, for each removed entry, the exclude term that matched
it (in the term's supplied casing, not the entry's), sorted lexically, with
one element per removed entry; terms matching nothing contribute nothing and
raise no error.  The spec's scenario `exclude ["TeX"]` on `{Go: 300, TeX: 50}`
gives aggregate `{Go: 300}` and report `["TeX"]`. -/
theorem applyExcludes_amended (total : List (String × Int)) (excludes : List String) :
    (applyExcludes total excludes).1
      = total.filter (fun p => !(excludes.any (fun t => lowerStr t == (lowerStr p.1))))
    ∧ (applyExcludes total excludes).2.Pairwise (fun a b : String => a ≤ b)
    ∧ (∀ t ∈ (applyExcludes total excludes).2,
        t ∈ excludes ∧ ∃ p ∈ total, lowerStr t = (lowerStr p.1))
    ∧ (applyExcludes total excludes).2.length
        = (total.filter
            (fun p => excludes.any (fun t => lowerStr t == (lowerStr p.1)))).length
    ∧ applyExcludes [("Go", 300), ("TeX", 50)] ["TeX"] = ([("Go", 300)], ["TeX"]) := by
  by_cases hlen : excludes.length = 0
  · have hnil : excludes = [] := List.length_eq_zero.1 hlen
    subst hnil
    refine ⟨?_, ?_, ?_, ?_, by decide⟩
    · show total = _
      simp
    · show List.Pairwise _ ([] : List String)
      exact List.Pairwise.nil
    · intro t ht
      exact absurd ht (by simp [applyExcludes])
    · show (0 : ℕ) = _
      simp
  · have happ : applyExcludes total excludes
        = (total.filter
            (fun p => (lookupStr (lowerStr p.1) (buildNormalized excludes)).isNone),
           sortBy strLess
            (total.filterMap
              (fun p => lookupStr (lowerStr p.1) (buildNormalized excludes)))) := by
      unfold applyExcludes
      rw [if_neg hlen]
    refine ⟨?_, ?_, ?_, ?_, by decide⟩
    · rw [happ]
      exact List.filter_congr
        (fun p _ => lookupNorm_isNone_eq excludes (lowerStr p.1))
    · rw [happ]
      have hp := pairwise_sortBy strLess strLess_asymm strLess_trans_neg
        (total.filterMap (fun p => lookupStr (lowerStr p.1) (buildNormalized excludes)))
      exact hp.imp (fun h => not_lt.1 (of_decide_eq_false h))
    · intro t ht
      rw [happ] at ht
      have hmem : t ∈ total.filterMap
          (fun p => lookupStr (lowerStr p.1) (buildNormalized excludes)) :=
        (sortBy_perm strLess _).mem_iff.1 ht
      rcases List.mem_filterMap.1 hmem with ⟨p, hp, hf⟩
      have := lookupNorm_some excludes (lowerStr p.1) t hf
      exact ⟨this.1, p, hp, this.2⟩
    · rw [happ]
      show (sortBy strLess _).length = _
      rw [(sortBy_perm strLess _).length_eq, length_filterMap_eq_length_filter]
      refine congrArg List.length (List.filter_congr ?_)
      exact fun p _ => lookupNorm_isSome_eq excludes (lowerStr p.1)

/-- Witness for C5's amended theorem at the spec scenario `{Go: 300, TeX: 50}`
with exclude list `["TeX"]`. -/
theorem applyExcludes_amended_witness :
    (applyExcludes [("Go", 300), ("TeX", 50)] ["TeX"]).1
      = [("Go", 300), ("TeX", 50)].filter
          (fun p => !(["TeX"].any (fun t => lowerStr t == (lowerStr p.1))))
    ∧ (applyExcludes [("Go", 300), ("TeX", 50)] ["TeX"]).2.Pairwise
        (fun a b : String => a ≤ b) :=
  ⟨(applyExcludes_amended [("Go", 300), ("TeX", 50)] ["TeX"]).1,
   (applyExcludes_amended [("Go", 300), ("TeX", 50)] ["TeX"]).2.1⟩

/-- One Go map increment `total[lang] += bytes` (src/main.go line 143):
update the existing key in place, or append a fresh key whose missing value
reads as zero. -/
def bump (total : List (String × Int)) (lang : String) (bytes : Int) :
    List (String × Int) :=
  match total with
  | [] => [(lang, bytes)]
  | (k, v) :: rest =>
      if k = lang then (k, v + bytes) :: rest else (k, v) :: bump rest lang bytes

/-- The inner accumulation loop of `fetchLanguages` (src/main.go lines
142-144) over one repository's language map. -/
def addLangs (total langs : List (String × Int)) : List (String × Int) :=
  langs.foldl (fun acc p => bump acc p.1 p.2) total

/-- Embeds the aggregation of `fetchLanguages` (src/main.go lines 132-148):
fold the per-repository language maps into one total map, starting from the
empty map.  The HTTP fetch and its fail-fast error path belong to the
external collaborator; the aggregation arithmetic is what is modelled. -/
def fetchLanguages (repoLangs : List (List (String × Int))) :
    List (String × Int) :=
  repoLangs.foldl addLangs []

/-- Reading a Go map: missing keys read as zero. -/
def lookupD (total : List (String × Int)) (key : String) : Int :=
  match lookupStr key total with
  | some v => v
  | none => 0

/-- Total contribution of one repository's language map to a given key. -/
def langSum (langs : List (String × Int)) (key : String) : Int :=
  (langs.map (fun p => if p.1 = key then p.2 else 0)).sum


theorem lookupStr_cons {α : Type} (k : String) (v : α) (rest : List (String × α))
    (key : String) :
    lookupStr key ((k, v) :: rest) = if k = key then some v else lookupStr key rest := rfl

theorem lookupD_cons (k : String) (v : Int) (rest : List (String × Int)) (key : String) :
    lookupD ((k, v) :: rest) key = if k = key then v else lookupD rest key := by
  unfold lookupD
  rw [lookupStr_cons]
  by_cases h : k = key
  · rw [if_pos h, if_pos h]
  · rw [if_neg h, if_neg h]

theorem bump_cons (k : String) (v : Int) (rest : List (String × Int))
    (lang : String) (bytes : Int) :
    bump ((k, v) :: rest) lang bytes
      = if k = lang then (k, v + bytes) :: rest
        else (k, v) :: bump rest lang bytes := rfl

theorem lookupD_bump (total : List (String × Int)) (lang key : String) (bytes : Int) :
    lookupD (bump total lang bytes) key
      = lookupD total key + (if lang = key then bytes else 0) := by
  induction total with
  | nil =>
    show lookupD [(lang, bytes)] key = lookupD [] key + _
    rw [lookupD_cons, show lookupD [] key = 0 from rfl]
    by_cases h : lang = key
    · rw [if_pos h]
      omega
    · rw [if_neg h]
      omega
  | cons p rest ih =>
    obtain ⟨k, v⟩ := p
    rw [bump_cons]
    by_cases h1 : k = lang
    · rw [if_pos h1, lookupD_cons, lookupD_cons]
      by_cases h2 : k = key
      · rw [if_pos h2, if_pos h2, if_pos (h1.symm.trans h2)]
      · rw [if_neg h2, if_neg h2, if_neg (fun e => h2 (h1.trans e))]
        omega
    · rw [if_neg h1, lookupD_cons, lookupD_cons]
      by_cases h2 : k = key
      · rw [if_pos h2, if_pos h2, if_neg (fun e => h1 (h2.trans e.symm))]
        omega
      · rw [if_neg h2, if_neg h2, ih]

theorem mem_keys_bump (total : List (String × Int)) (lang key : String) (bytes : Int) :
    key ∈ (bump total lang bytes).map Prod.fst
      ↔ key = lang ∨ key ∈ total.map Prod.fst := by
  induction total with
  | nil => simp [bump]
  | cons p rest ih =>
    obtain ⟨k, v⟩ := p
    rw [bump_cons]
    by_cases h1 : k = lang
    · subst h1
      rw [if_pos rfl]
      simp only [List.map_cons, List.mem_cons]
      tauto
    · rw [if_neg h1]
      simp only [List.map_cons, List.mem_cons, ih]
      tauto

theorem lookupD_addLangs (langs total : List (String × Int)) (key : String) :
    lookupD (addLangs total langs) key = lookupD total key + langSum langs key := by
  induction langs generalizing total with
  | nil => simp [addLangs, langSum]
  | cons p ps ih =>
    show lookupD (addLangs (bump total p.1 p.2) ps) key = _
    rw [ih (bump total p.1 p.2), lookupD_bump]
    unfold langSum
    rw [List.map_cons, List.sum_cons]
    ring

theorem mem_keys_addLangs (langs total : List (String × Int)) (key : String) :
    key ∈ (addLangs total langs).map Prod.fst
      ↔ key ∈ total.map Prod.fst ∨ key ∈ langs.map Prod.fst := by
  induction langs generalizing total with
  | nil => simp [addLangs]
  | cons p ps ih =>
    show key ∈ (addLangs (bump total p.1 p.2) ps).map Prod.fst ↔ _
    rw [ih (bump total p.1 p.2), mem_keys_bump]
    simp only [List.map_cons, List.mem_cons]
    tauto

theorem lookupD_fetch_gen (rss : List (List (String × Int)))
    (acc : List (String × Int)) (key : String) :
    lookupD (rss.foldl addLangs acc) key
      = lookupD acc key + (rss.map (fun r => langSum r key)).sum := by
  induction rss generalizing acc with
  | nil => simp
  | cons r rs ih =>
    rw [List.foldl_cons, ih (addLangs acc r), lookupD_addLangs]
    rw [List.map_cons, List.sum_cons]
    ring

theorem mem_keys_fetch_gen (rss : List (List (String × Int)))
    (acc : List (String × Int)) (key : String) :
    key ∈ (rss.foldl addLangs acc).map Prod.fst
      ↔ key ∈ acc.map Prod.fst ∨ ∃ r ∈ rss, key ∈ r.map Prod.fst := by
  induction rss generalizing acc with
  | nil => simp
  | cons r rs ih =>
    rw [List.foldl_cons, ih (addLangs acc r), mem_keys_addLangs]
    constructor
    · rintro ((hacc | hr) | ⟨x, hx, px⟩)
      · exact Or.inl hacc
      · exact Or.inr ⟨r, List.mem_cons_self r rs, hr⟩
      · exact Or.inr ⟨x, List.mem_cons_of_mem r hx, px⟩
    · rintro (hacc | ⟨x, hx, px⟩)
      · exact Or.inl (Or.inl hacc)
      · rcases List.mem_cons.1 hx with rfl | hx'
        · exact Or.inl (Or.inr px)
        · exact Or.inr ⟨x, hx', px⟩

/-- C9: aggregation is commutative and order-independent.  Folding the
per-repository language maps in any permutation of the repository list yields
the same total mapping: every key reads the same summed value, and the same
set of keys is present. -/
theorem fetchLanguages_perm_invariant (rss₁ rss₂ : List (List (String × Int)))
    (h : rss₁.Perm rss₂) :
    (∀ key, lookupD (fetchLanguages rss₁) key = lookupD (fetchLanguages rss₂) key)
    ∧ (∀ key, key ∈ (fetchLanguages rss₁).map Prod.fst
        ↔ key ∈ (fetchLanguages rss₂).map Prod.fst) := by
  constructor
  · intro key
    unfold fetchLanguages
    rw [lookupD_fetch_gen, lookupD_fetch_gen]
    rw [((h.map (fun r => langSum r key))).sum_eq]
  · intro key
    unfold fetchLanguages
    rw [mem_keys_fetch_gen, mem_keys_fetch_gen]
    constructor
    · rintro (hacc | ⟨r, hr, hk⟩)
      · exact Or.inl hacc
      · exact Or.inr ⟨r, h.mem_iff.1 hr, hk⟩
    · rintro (hacc | ⟨r, hr, hk⟩)
      · exact Or.inl hacc
      · exact Or.inr ⟨r, h.mem_iff.2 hr, hk⟩

/-- Witness for C9: aggregating the two repositories `{Go: 1}` and
`{Go: 2, Rust: 3}` in either order reads the same total for `"Go"`, and that
total evaluates to 3. -/
theorem fetchLanguages_perm_invariant_witness :
    lookupD (fetchLanguages [[("Go", 1)], [("Go", 2), ("Rust", 3)]]) "Go"
      = lookupD (fetchLanguages [[("Go", 2), ("Rust", 3)], [("Go", 1)]]) "Go"
    ∧ lookupD (fetchLanguages [[("Go", 1)], [("Go", 2), ("Rust", 3)]]) "Go" = 3 := by
  constructor
  · exact (fetchLanguages_perm_invariant _ _ (List.Perm.swap _ _ _)).1 "Go"
  · decide

/-- Per-character substitution performed by the `strings.NewReplacer` of
`escapeText` (src/main.go lines 319-328).  All five patterns are single
characters and replacements are not rescanned, so the replacer is exactly a
character-wise substitution. -/
def escapeChar (c : Char) : List Char :=
  if c = '&' then ['&', 'a', 'm', 'p', ';']
  else if c = '<' then ['&', 'l', 't', ';']
  else if c = '>' then ['&', 'g', 't', ';']
  else if c = '"' then ['&', 'q', 'u', 'o', 't', ';']
  else if c = '\'' then ['&', 'a', 'p', 'o', 's', ';']
  else [c]

/-- Character-wise substitution over a whole character list. -/
def escapeList : List Char → List Char
  | [] => []
  | c :: rest => escapeChar c ++ escapeList rest

/-- Embeds `escapeText` (src/main.go lines 319-328). -/
def escapeText (input : String) : String :=
  ⟨escapeList input.data⟩

/-- Boolean check that one concrete list is an initial run of another. -/
def leadsWith : List Char → List Char → Bool
  | [], _ => true
  | _ :: _, [] => false
  | c :: cs, d :: ds => (c == d) && leadsWith cs ds

/-- The five escape tails: what must immediately follow any `&` in properly
escaped output. -/
def escTails : List (List Char) :=
  [['a', 'm', 'p', ';'], ['l', 't', ';'], ['g', 't', ';'],
   ['q', 'u', 'o', 't', ';'], ['a', 'p', 'o', 's', ';']]

/-- Decides the "no raw forms" property: the list contains no `<`, `>`, `"`
or `'` at all, and every `&` in it starts one of the five escape sequences. -/
def escapedOk : List Char → Bool
  | [] => true
  | c :: rest =>
    if c = '&' then escTails.any (fun t => leadsWith t rest) && escapedOk rest
    else decide (c ≠ '<' ∧ c ≠ '>' ∧ c ≠ '"' ∧ c ≠ '\'') && escapedOk rest

theorem escapedOk_escapeList (l : List Char) : escapedOk (escapeList l) = true := by
  induction l with
  | nil => rfl
  | cons c rest ih =>
    show escapedOk (escapeChar c ++ escapeList rest) = true
    unfold escapeChar
    by_cases h1 : c = '&'
    · rw [if_pos h1]
      simp [escapedOk, escTails, leadsWith, ih]
    · rw [if_neg h1]
      by_cases h2 : c = '<'
      · rw [if_pos h2]
        simp [escapedOk, escTails, leadsWith, ih]
      · rw [if_neg h2]
        by_cases h3 : c = '>'
        · rw [if_pos h3]
          simp [escapedOk, escTails, leadsWith, ih]
        · rw [if_neg h3]
          by_cases h4 : c = '"'
          · rw [if_pos h4]
            simp [escapedOk, escTails, leadsWith, ih]
          · rw [if_neg h4]
            by_cases h5 : c = '\''
            · rw [if_pos h5]
              simp [escapedOk, escTails, leadsWith, ih]
            · rw [if_neg h5]
              simp [escapedOk, h1, h2, h3, h4, h5, ih]

/-- C7: `escapeText` substitutes every ampersand, angle bracket and quote
character with its escaped equivalent: the output contains no `<`, `>`, `"`
or `'` at all, every `&` in it begins one of the five escape sequences
(`escapedOk`), and each special character maps to exactly its entity. -/
theorem escapeText_escapes_all (input : String) :
    escapedOk (escapeText input).data = true
    ∧ escapeText "&" = "&amp;"
    ∧ escapeText "<" = "&lt;"
    ∧ escapeText ">" = "&gt;"
    ∧ escapeText "\"" = "&quot;"
    ∧ escapeText "'" = "&apos;"
    ∧ escapeText "a&b" = "a&amp;b" := by
  refine ⟨escapedOk_escapeList input.data, ?_, ?_, ?_, ?_, ?_, ?_⟩ <;> decide

/-- Canvas constants of `writeSVG` (src/main.go lines 206-210): the Go locals
`width`, `height`, `cardPadding`. -/
def width : Int := 640

/-- Canvas height (src/main.go line 208). -/
def height : Int := 320

/-- Card padding (src/main.go line 209). -/
def cardPadding : Int := 28

/-- Bar left edge `barX := cardPadding` (src/main.go line 263). -/
def barX : Int := cardPadding

/-- Bar width `barWidth := width - cardPadding*2` (src/main.go line 265). -/
def barWidth : Int := width - cardPadding * 2

/-- Layout constants (src/main.go lines 243-248). -/
def headerHeight : Int := 24

/-- Gap under the header (src/main.go line 244). -/
def headerGap : Int := 18

/-- Bar height (src/main.go line 245). -/
def barHeight : Int := 14

/-- Gap under the bar (src/main.go line 246). -/
def barGap : Int := 22

/-- Tile height (src/main.go line 247). -/
def tileHeight : Int := 72

/-- Tile gap (src/main.go line 248). -/
def tileGap : Int := 16

/-- The fallback palette `colors` (src/main.go lines 212-219). -/
def colors : List String :=
  ["#f2c94c", "#2d9cdb", "#27ae60", "#bb6bd9", "#56ccf2", "#eb5757"]

/-- `colors[i%len(colors)]`: the cyclic fallback color for rank position `i`
(src/main.go lines 278 and 292). -/
def paletteColor (i : Nat) : String :=
  colors.getD (i % colors.length) ""

/-- The fixed language-to-color table `languageColors`
(src/main.go lines 349-375). -/
def languageColors : List (String × String) :=
  [("go", "#00ADD8"), ("python", "#3572A5"), ("javascript", "#f1e05a"),
   ("typescript", "#3178c6"), ("java", "#b07219"), ("php", "#4F5D95"),
   ("ruby", "#701516"), ("c", "#555555"), ("c++", "#f34b7d"),
   ("c#", "#178600"), ("swift", "#F05138"), ("kotlin", "#A97BFF"),
   ("rust", "#dea584"), ("scala", "#c22d40"), ("shell", "#89e051"),
   ("html", "#e34c26"), ("css", "#563d7c"), ("vue", "#41b883"),
   ("dart", "#00B4AB"), ("lua", "#000080"), ("r", "#198CE7"),
   ("matlab", "#e16737"), ("makefile", "#427819"), ("hcl", "#844FBA"),
   ("dockerfile", "#384d54")]

/-- Embeds `colorForLanguage` (src/main.go lines 330-335): case-insensitive
table lookup, else the supplied fallback. -/
def colorForLanguage (lang fallback : String) : String :=
  match lookupStr (lowerStr lang) languageColors with
  | some color => color
  | none => fallback

/-- One emitted bar segment (src/main.go line 279): x position, width and
fill color of one `<rect>` inside the bar. -/
structure Segment where
  x : Int
  width : Int
  color : String
deriving Repr, DecidableEq

/-- The computed proportional width of one bar segment (src/main.go
line 271).  Go evaluates `int(float64(barWidth)*(float64(bytes)/float64(totalBytes)))`;
for the non-negative byte counts this pipeline produces, that is the
rounded-down share, embedded as the exact rational floor
`barWidth * bytes / totalBytes` in place of the double-precision
intermediate.  Every concrete instance evaluated in a theorem below is far
from an integer boundary, where the two computations agree. -/
def segWidth (bytes totalBytes : Int) : Int :=
  barWidth * bytes / totalBytes

/-- The bar-segment emission loop of `writeSVG` (src/main.go lines 269-281):
`i` is the loop index (it drives the fallback palette), `accumX` the running
x cursor.  Entries whose computed width is zero are skipped; the final
entry — when it is emitted at all — has its width replaced by the remaining
distance to the bar's right edge. -/
def barSegmentsAux (totalBytes : Int) : Nat → Int → List langStat → List Segment
  | _, _, [] => []
  | i, accumX, item :: rest =>
    if segWidth item.bytes totalBytes = 0 then
      barSegmentsAux totalBytes (i + 1) accumX rest
    else
      Segment.mk accumX
        (if rest.isEmpty then barX + barWidth - accumX
         else segWidth item.bytes totalBytes)
        (colorForLanguage item.lang (paletteColor i)) ::
        barSegmentsAux totalBytes (i + 1)
          (accumX +
            (if rest.isEmpty then barX + barWidth - accumX
             else segWidth item.bytes totalBytes)) rest

/-- The bar segments of one render: the loop starts at index 0 with the
cursor at the bar's left edge (src/main.go line 269). -/
def barSegments (ranked : List langStat) (totalBytes : Int) : List Segment :=
  barSegmentsAux totalBytes 0 barX ranked

/-- Structured embedding of the SVG elements `writeSVG` prints, in emission
order, keeping the attributes the specification constrains.  The percentage
text keeps its exact numerator and denominator: Go formats
`bytes/total*100` with `%.2f`, a presentational float-formatting step. -/
inductive SvgElem where
  | xmlHeader : SvgElem
  | svgOpen (w h : Int) : SvgElem
  | background : SvgElem
  | headerText (x y : Int) (text : String) : SvgElem
  | barBack (x y w h : Int) : SvgElem
  | barClip (x y w h : Int) : SvgElem
  | segmentRect (x y w h : Int) (color : String) : SvgElem
  | tileRect (x y w h : Int) : SvgElem
  | swatch (x y w h : Int) (color : String) : SvgElem
  | tileName (x y : Int) (text : String) : SvgElem
  | tilePercent (x y : Int) (bytes totalBytes : Int) : SvgElem
  | tileBytes (x y : Int) (bytes : Int) : SvgElem
  | footnote (x y : Int) (text : String) : SvgElem
  | svgClose : SvgElem
deriving Repr, DecidableEq

/-- The five elements of one tile (src/main.go lines 287-300) for the entry
at rank position `i`. -/
def tileElems (totalBytes gridTop tileWidth : Int) (cols : Nat) (i : Nat)
    (item : langStat) : List SvgElem :=
  let row : Nat := i / cols
  let col : Nat := i % cols
  let x : Int := cardPadding + (col : Int) * (tileWidth + tileGap)
  let y : Int := gridTop + (row : Int) * (tileHeight + tileGap)
  let color := colorForLanguage item.lang (paletteColor i)
  [SvgElem.tileRect x y tileWidth tileHeight,
   SvgElem.swatch (x + 12) (y + 10) 6 (tileHeight - 20) color,
   SvgElem.tileName (x + 28) (y + 28) (escapeText item.lang),
   SvgElem.tilePercent (x + 28) (y + 48) item.bytes totalBytes,
   SvgElem.tileBytes (x + 28) (y + 64) item.bytes]

/-- `strings.Join(excluded, ", ")` (src/main.go line 303). -/
def joinComma : List String → String
  | [] => ""
  | [s] => s
  | s :: rest => s ++ ", " ++ joinComma rest

/-- The element emission of `writeSVG` once past its error checks
(src/main.go lines 229-311), for a given byte total.  Note Go computes
`topOffset` with truncating division; `Int` division here floors, but the two
can only differ when the quotient is negative, in which case both fall below
`cardPadding` and are clamped to it. -/
def svgBody (ranked : List langStat) (excluded : List String)
    (totalBytes : Int) : List SvgElem :=
  let cols : Nat := if ranked.length < 3 then ranked.length else 3
  let rows : Nat := (ranked.length + cols - 1) / cols
  let footerHeight : Int := if excluded.length > 0 then 28 else 0
  let gridHeight : Int := (rows : Int) * tileHeight + ((rows : Int) - 1) * tileGap
  let contentHeight : Int :=
    headerHeight + headerGap + barHeight + barGap + gridHeight + footerHeight
  let topOffset0 : Int := (height - contentHeight) / 2
  let topOffset : Int := if topOffset0 < cardPadding then cardPadding else topOffset0
  let headerTextY : Int := topOffset + 18
  let barY : Int := topOffset + headerHeight + headerGap
  let segs := barSegments ranked totalBytes
  let gridTop : Int := barY + barHeight + barGap
  let gridWidth : Int := width - cardPadding * 2
  let tileWidth : Int := (gridWidth - ((cols : Int) - 1) * tileGap) / (cols : Int)
  let tiles :=
    (ranked.enum.map (fun p => tileElems totalBytes gridTop tileWidth cols p.1 p.2)).flatten
  let footnoteElems : List SvgElem :=
    if excluded.length > 0 then
      [SvgElem.footnote cardPadding
        (if gridTop + gridHeight + 20 > height - 18 then height - 18
         else gridTop + gridHeight + 20)
        (escapeText ("Excluded: " ++ joinComma excluded))]
    else []
  [SvgElem.xmlHeader, SvgElem.svgOpen width height, SvgElem.background,
   SvgElem.headerText cardPadding headerTextY "Most Used Languages",
   SvgElem.barBack barX barY barWidth barHeight,
   SvgElem.barClip barX barY barWidth barHeight]
  ++ segs.map (fun s => SvgElem.segmentRect s.x barY s.width barHeight s.color)
  ++ tiles ++ footnoteElems ++ [SvgElem.svgClose]

/-- Embeds `writeSVG` (src/main.go lines 201-317) up to but excluding the
filesystem write: an `Except.ok` value is the image content written to
`path`, an `Except.error` means the Go function returns before producing any
file.  The unreachable re-check of emptiness at src/main.go lines 233-235 is
kept for fidelity.  The `owner` parameter mirrors the Go signature; the body
never reads it. -/
def writeSVG (path : String) (ranked : List langStat) (owner : String)
    (excluded : List String) : Except String (List SvgElem) :=
  if ranked.length = 0 then Except.error "no language data to chart"
  else if sumBytes ranked = 0 then Except.error "no language data to chart"
  else if ranked.length = 0 then Except.error "no language data to chart"
  else Except.ok (svgBody ranked excluded (sumBytes ranked))

/-- Repository filtering in `main` (src/main.go lines 72-81): keep a
repository unless it is a fork while forks are excluded, or archived while
archived repositories are excluded. -/
def filterRepos (repos : List Repo) (includeForks includeArchived : Bool) :
    List Repo :=
  repos.filter (fun r => (includeForks || !r.fork) && (includeArchived || !r.archived))

/-- The post-fetch stages of `main` (src/main.go lines 72-102): filter,
aggregate through the given per-repository language table (the Language
Source collaborator), exclude, rank, optionally bucketize, render.  The
console table printed before rendering has no effect on the artifact and is
omitted. -/
def runPipeline (repos : List Repo) (langsOf : Repo → List (String × Int))
    (includeForks includeArchived : Bool) (excludes : List String)
    (top : Int) (showOther : Bool) (output owner : String) :
    Except String (List SvgElem) :=
  let filtered := filterRepos repos includeForks includeArchived
  if filtered.length = 0 then Except.error "no repositories after filtering"
  else
    let total := fetchLanguages (filtered.map langsOf)
    let res := applyExcludes total excludes
    let ranked := rankLanguages res.1
    let ranked2 :=
      if 0 < top ∧ top < (ranked.length : Int)
      then collapseOthers ranked top showOther else ranked
    writeSVG output ranked2 owner res.2

/-- C10: the rendered image content is independent of the owner label: the
body of `writeSVG` never reads its `owner` parameter (the header is the fixed
text "Most Used Languages"), so two calls differing only in the owner produce
identical results for every path, ranked sequence and excluded list. -/
theorem writeSVG_owner_independent (path : String) (ranked : List langStat)
    (owner₁ owner₂ : String) (excluded : List String) :
    writeSVG path ranked owner₁ excluded = writeSVG path ranked owner₂ excluded := rfl

/-- C6: `writeSVG` fails with the "no data" error — and so no image file is
produced — whenever the ranked sequence is empty or its byte total is zero;
and the pipeline fails with the distinct empty-result error, never reaching
the renderer, when filtering leaves no repositories. -/
theorem pipeline_empty_errors (path owner output : String)
    (ranked : List langStat) (excluded excludes : List String)
    (repos : List Repo) (langsOf : Repo → List (String × Int))
    (includeForks includeArchived showOther : Bool) (top : Int) :
    (ranked = [] ∨ sumBytes ranked = 0 →
      writeSVG path ranked owner excluded
        = Except.error "no language data to chart")
    ∧ (filterRepos repos includeForks includeArchived = [] →
      runPipeline repos langsOf includeForks includeArchived excludes top
          showOther output owner
        = Except.error "no repositories after filtering") := by
  constructor
  · rintro (rfl | hz)
    · rfl
    · unfold writeSVG
      by_cases hl : ranked.length = 0
      · rw [if_pos hl]
      · rw [if_neg hl, if_pos hz]
  · intro hf
    unfold runPipeline
    rw [hf]
    rfl

/-- Witness for C6: the zero-byte ranking `[Zig: 0]` draws the "no data"
error from `writeSVG`, and a repository list holding only a fork, with forks
excluded, draws the empty-result error from the pipeline. -/
theorem pipeline_empty_errors_witness :
    writeSVG "lang-rank.svg" [⟨"Zig", 0⟩] "octocat" []
      = Except.error "no language data to chart"
    ∧ runPipeline [⟨"r", "o/r", true, false⟩] (fun _ => [("Go", 1)]) false false
          [] 0 true "lang-rank.svg" "octocat"
      = Except.error "no repositories after filtering" := by
  constructor
  · exact (pipeline_empty_errors "lang-rank.svg" "octocat" "lang-rank.svg"
      [⟨"Zig", 0⟩] [] [] [] (fun _ => [("Go", 1)]) false false true 0).1
      (Or.inr (by decide))
  · exact (pipeline_empty_errors "lang-rank.svg" "octocat" "lang-rank.svg"
      [⟨"Zig", 0⟩] [] [] [⟨"r", "o/r", true, false⟩] (fun _ => [("Go", 1)])
      false false true 0).2 (by decide)

/-- A segment list is contiguous from a cursor when each segment begins
exactly where the previous one ends. -/
def contiguousFrom : Int → List Segment → Prop
  | _, [] => True
  | s, seg :: rest => seg.x = s ∧ contiguousFrom (s + seg.width) rest

theorem barSegmentsAux_nil (totalBytes : Int) (i : Nat) (accumX : Int) :
    barSegmentsAux totalBytes i accumX [] = [] := rfl

theorem barSegmentsAux_cons (totalBytes : Int) (i : Nat) (accumX : Int)
    (item : langStat) (rest : List langStat) :
    barSegmentsAux totalBytes i accumX (item :: rest)
      = if segWidth item.bytes totalBytes = 0 then
          barSegmentsAux totalBytes (i + 1) accumX rest
        else
          Segment.mk accumX
            (if rest.isEmpty then barX + barWidth - accumX
             else segWidth item.bytes totalBytes)
            (colorForLanguage item.lang (paletteColor i)) ::
            barSegmentsAux totalBytes (i + 1)
              (accumX +
                (if rest.isEmpty then barX + barWidth - accumX
                 else segWidth item.bytes totalBytes)) rest := rfl

theorem barSegmentsAux_contiguous (totalBytes : Int) (items : List langStat)
    (i : Nat) (accumX : Int) :
    contiguousFrom accumX (barSegmentsAux totalBytes i accumX items) := by
  induction items generalizing i accumX with
  | nil => trivial
  | cons item rest ih =>
    unfold barSegmentsAux
    by_cases h : segWidth item.bytes totalBytes = 0
    · rw [if_pos h]
      exact ih (i + 1) accumX
    · rw [if_neg h]
      exact ⟨rfl, ih (i + 1) _⟩

theorem barSegmentsAux_width_sum (totalBytes : Int) :
    ∀ (items : List langStat) (i : Nat) (accumX : Int) (hne : items ≠ [])
      (_ : segWidth (items.getLast hne).bytes totalBytes ≠ 0),
    ((barSegmentsAux totalBytes i accumX items).map Segment.width).sum
      = barX + barWidth - accumX := by
  intro items
  induction items with
  | nil => intro i accumX hne hlast; exact absurd rfl hne
  | cons item rest ih =>
    intro i accumX hne hlast
    cases rest with
    | nil =>
      have hlast' : segWidth item.bytes totalBytes ≠ 0 := by
        simpa using hlast
      rw [barSegmentsAux_cons, if_neg hlast']
      simp only [List.isEmpty_nil, if_true, List.map_cons, List.map_nil,
        List.sum_cons, List.sum_nil, barSegmentsAux_nil]
      ring
    | cons r2 rs =>
      have hne2 : r2 :: rs ≠ [] := List.cons_ne_nil r2 rs
      have hlast2 : segWidth ((r2 :: rs).getLast hne2).bytes totalBytes ≠ 0 := by
        rw [List.getLast_cons hne2] at hlast
        exact hlast
      rw [barSegmentsAux_cons]
      by_cases h : segWidth item.bytes totalBytes = 0
      · rw [if_pos h]
        exact ih (i + 1) accumX hne2 hlast2
      · rw [if_neg h, if_neg (by simp : ¬((r2 :: rs).isEmpty = true))]
        rw [List.map_cons, List.sum_cons, ih (i + 1) _ hne2 hlast2]
        ring

theorem barSegmentsAux_dropLast_widths (totalBytes : Int) :
    ∀ (items : List langStat) (i : Nat) (accumX : Int),
      ∀ seg ∈ (barSegmentsAux totalBytes i accumX items).dropLast,
        ∃ item ∈ items, seg.width = segWidth item.bytes totalBytes
          ∧ segWidth item.bytes totalBytes ≠ 0 := by
  intro items
  induction items with
  | nil =>
    intro i accumX seg hs
    simp [barSegmentsAux] at hs
  | cons item rest ih =>
    intro i accumX seg hs
    rw [barSegmentsAux_cons] at hs
    by_cases h : segWidth item.bytes totalBytes = 0
    · rw [if_pos h] at hs
      rcases ih (i + 1) accumX seg hs with ⟨it, hit, hw⟩
      exact ⟨it, List.mem_cons_of_mem item hit, hw⟩
    · rw [if_neg h] at hs
      cases h2 : barSegmentsAux totalBytes (i + 1)
          (accumX +
            (if rest.isEmpty then barX + barWidth - accumX
             else segWidth item.bytes totalBytes)) rest with
      | nil =>
        rw [h2] at hs
        simp at hs
      | cons t ts =>
        rw [h2] at hs
        have hrest : rest ≠ [] := by
          intro hrnil
          subst hrnil
          simp [barSegmentsAux] at h2
        have hie : rest.isEmpty = false := by
          cases rest with
          | nil => exact absurd rfl hrest
          | cons _ _ => rfl
        rw [List.dropLast_cons_of_ne_nil (by simp : (t :: ts) ≠ [])] at hs
        rcases List.mem_cons.1 hs with rfl | hs'
        · refine ⟨item, List.mem_cons_self item rest, ?_, h⟩
          show (if rest.isEmpty then barX + barWidth - accumX
            else segWidth item.bytes totalBytes) = _
          rw [hie]
          simp
        · rw [← h2] at hs'
          rcases ih (i + 1) _ seg hs' with ⟨it, hit, hw⟩
          exact ⟨it, List.mem_cons_of_mem item hit, hw⟩

/-- Collects the language-name texts of the tile grid, in emission order. -/
def tileNameTexts (elems : List SvgElem) : List String :=
  elems.filterMap (fun e =>
    match e with
    | SvgElem.tileName _ _ t => some t
    | _ => none)

theorem tileNameTexts_append (l₁ l₂ : List SvgElem) :
    tileNameTexts (l₁ ++ l₂) = tileNameTexts l₁ ++ tileNameTexts l₂ := by
  unfold tileNameTexts
  rw [List.filterMap_append]

theorem tileNameTexts_tiles (tb gt tw : Int) (cols : Nat) :
    ∀ (l : List langStat) (n : Nat),
      tileNameTexts (((List.enumFrom n l).map
          (fun p => tileElems tb gt tw cols p.1 p.2)).flatten)
        = l.map (fun it => escapeText it.lang) := by
  intro l
  induction l with
  | nil => intro n; rfl
  | cons x xs ih =>
    intro n
    show tileNameTexts (tileElems tb gt tw cols n x ++
      ((List.enumFrom (n + 1) xs).map
        (fun p => tileElems tb gt tw cols p.1 p.2)).flatten) = _
    rw [tileNameTexts_append, ih (n + 1)]
    rfl

theorem segments_no_tileName (segs : List Segment) (barY : Int) :
    tileNameTexts (segs.map
      (fun s => SvgElem.segmentRect s.x barY s.width barHeight s.color)) = [] := by
  induction segs with
  | nil => rfl
  | cons s ss ih =>
    show tileNameTexts (SvgElem.segmentRect s.x barY s.width barHeight s.color ::
      ss.map (fun s => SvgElem.segmentRect s.x barY s.width barHeight s.color)) = []
    rw [show tileNameTexts (SvgElem.segmentRect s.x barY s.width barHeight s.color ::
      ss.map (fun s => SvgElem.segmentRect s.x barY s.width barHeight s.color))
      = tileNameTexts (ss.map
          (fun s => SvgElem.segmentRect s.x barY s.width barHeight s.color)) from rfl]
    exact ih

theorem tileNameTexts_svgBody (ranked : List langStat) (excluded : List String)
    (totalBytes : Int) :
    tileNameTexts (svgBody ranked excluded totalBytes)
      = ranked.map (fun it => escapeText it.lang) := by
  simp only [svgBody]
  rw [tileNameTexts_append, tileNameTexts_append, tileNameTexts_append,
    tileNameTexts_append]
  rw [segments_no_tileName]
  rw [show List.enum ranked = List.enumFrom 0 ranked from rfl]
  rw [tileNameTexts_tiles]
  have hfoot : ∀ (c : Bool) (x y : Int) (t : String),
      tileNameTexts (if c = true then [SvgElem.footnote x y t] else []) = [] := by
    intro c x y t
    cases c <;> rfl
  by_cases hex : excluded.length > 0
  · rw [if_pos hex]
    simp [tileNameTexts]
  · rw [if_neg hex]
    simp [tileNameTexts]

/-- Counterexample to C2 as stated: for the valid ranked sequence
`[A: 1000, B: 1]` the final entry's proportional width rounds down to zero,
so the loop skips it before reaching the remainder-absorption step
(src/main.go lines 272-277) and the emitted widths sum to 583, one short of
the declared bar width 584.  (Go's float64 evaluation gives the same two
widths: 584*1000/1001 ≈ 583.42 and 584*1/1001 ≈ 0.58, both far from integer
boundaries.) -/
theorem barSegments_counterexample :
    ((barSegments [⟨"A", 1000⟩, ⟨"B", 1⟩]
        (sumBytes [⟨"A", 1000⟩, ⟨"B", 1⟩])).map Segment.width).sum = 583
    ∧ ¬ ((barSegments [⟨"A", 1000⟩, ⟨"B", 1⟩]
        (sumBytes [⟨"A", 1000⟩, ⟨"B", 1⟩])).map Segment.width).sum = barWidth := by
  constructor
  · decide
  · decide

/-- C2 (amended): the bar segments are contiguous from the bar's left edge;
every non-final emitted segment's width is its entry's rounded-down share of
the total (and positive); provided the final entry's computed width is
nonzero — so the zero-width omission does not drop the very segment that
absorbs the remainder — the widths sum exactly to the declared bar width; and
entries are omitted from the bar only: the tile grid below still names every
ranked entry in order. -/
theorem writeSVG_bar_amended (ranked : List langStat) (totalBytes : Int)
    (excluded : List String)
    (hne : ranked ≠ [])
    (hlast : segWidth (ranked.getLast hne).bytes totalBytes ≠ 0) :
    contiguousFrom barX (barSegments ranked totalBytes)
    ∧ ((barSegments ranked totalBytes).map Segment.width).sum = barWidth
    ∧ (∀ seg ∈ (barSegments ranked totalBytes).dropLast,
        ∃ item ∈ ranked, seg.width = segWidth item.bytes totalBytes
          ∧ segWidth item.bytes totalBytes ≠ 0)
    ∧ tileNameTexts (svgBody ranked excluded totalBytes)
        = ranked.map (fun it => escapeText it.lang) := by
  refine ⟨barSegmentsAux_contiguous totalBytes ranked 0 barX, ?_,
    barSegmentsAux_dropLast_widths totalBytes ranked 0 barX,
    tileNameTexts_svgBody ranked excluded totalBytes⟩
  unfold barSegments
  rw [barSegmentsAux_width_sum totalBytes ranked 0 barX hne hlast]
  ring

/-- Witness for C2's amended theorem at `[Go: 300, Python: 100]` with total
400: the two segments tile the bar contiguously and their widths (438 and the
absorbed remainder 146) sum to the full 584. -/
theorem writeSVG_bar_amended_witness :
    contiguousFrom barX (barSegments [⟨"Go", 300⟩, ⟨"Python", 100⟩] 400)
    ∧ ((barSegments [⟨"Go", 300⟩, ⟨"Python", 100⟩] 400).map Segment.width).sum
        = barWidth
    ∧ ((barSegments [⟨"Go", 300⟩, ⟨"Python", 100⟩] 400).map Segment.width)
        = [438, 146] := by
  have h := writeSVG_bar_amended [⟨"Go", 300⟩, ⟨"Python", 100⟩] 400 []
    (by decide) (by decide)
  exact ⟨h.1, h.2.1, by decide⟩

/-- C8: color resolution.  `colorForLanguage` resolves case-insensitively
(names with the same lowercasing resolve identically); a table hit returns
the table color and a miss returns the supplied fallback; in the rendered
body, the swatch of the tile at rank position `i` carries exactly
`colorForLanguage name (paletteColor i)` — the cyclic palette color at the
rank position modulo the palette length — and every emitted bar segment
carries the color of the entry it came from, resolved the same way, so one
entry's segment and swatch always agree. -/
theorem colorForLanguage_resolution :
    (∀ a b fallback : String, lowerStr a = lowerStr b →
        colorForLanguage a fallback = colorForLanguage b fallback)
    ∧ (∀ lang fallback : String,
        lookupStr (lowerStr lang) languageColors = none →
        colorForLanguage lang fallback = fallback)
    ∧ (∀ lang color fallback : String,
        lookupStr (lowerStr lang) languageColors = some color →
        colorForLanguage lang fallback = color)
    ∧ (∀ (totalBytes gridTop tileWidth : Int) (cols i : Nat) (item : langStat),
        (tileElems totalBytes gridTop tileWidth cols i item).filterMap
            (fun e => match e with
              | SvgElem.swatch _ _ _ _ c => some c
              | _ => none)
          = [colorForLanguage item.lang (paletteColor i)])
    ∧ (∀ (ranked : List langStat) (totalBytes : Int),
        ∀ seg ∈ barSegments ranked totalBytes,
          ∃ j item, ranked[j]? = some item
            ∧ seg.color = colorForLanguage item.lang (paletteColor j)) := by
  refine ⟨?_, ?_, ?_, ?_, ?_⟩
  · intro a b fallback hab
    unfold colorForLanguage
    rw [hab]
  · intro lang fallback hmiss
    unfold colorForLanguage
    rw [hmiss]
  · intro lang color fallback hhit
    unfold colorForLanguage
    rw [hhit]
  · intro totalBytes gridTop tileWidth cols i item
    rfl
  · intro ranked totalBytes seg hs
    have haux : ∀ (items : List langStat) (i : Nat) (accumX : Int),
        ∀ seg ∈ barSegmentsAux totalBytes i accumX items,
          ∃ j item, items[j]? = some item
            ∧ seg.color = colorForLanguage item.lang (paletteColor (i + j)) := by
      intro items
      induction items with
      | nil =>
        intro i accumX seg hs
        simp [barSegmentsAux] at hs
      | cons item rest ih =>
        intro i accumX seg hs
        rw [barSegmentsAux_cons] at hs
        by_cases h : segWidth item.bytes totalBytes = 0
        · rw [if_pos h] at hs
          rcases ih (i + 1) accumX seg hs with ⟨j, it, hj, hc⟩
          refine ⟨j + 1, it, by simpa using hj, ?_⟩
          rw [hc, show i + 1 + j = i + (j + 1) from by omega]
        · rw [if_neg h] at hs
          rcases List.mem_cons.1 hs with rfl | hs'
          · refine ⟨0, item, by simp, ?_⟩
            show colorForLanguage item.lang (paletteColor i) = _
            simp
          · rcases ih (i + 1) _ seg hs' with ⟨j, it, hj, hc⟩
            refine ⟨j + 1, it, by simpa using hj, ?_⟩
            rw [hc, show i + 1 + j = i + (j + 1) from by omega]
    have := haux ranked 0 barX seg hs
    simpa using this

/-- Witness for C8: `"gO"` and `"Go"` resolve to the same table color
`#00ADD8`; the absent language `"Zig"` falls back to the supplied palette
color; and the first tile's swatch for a `Zig` entry carries the rank-0
palette color. -/
theorem colorForLanguage_resolution_witness :
    colorForLanguage "gO" "#eb5757" = colorForLanguage "Go" "#eb5757"
    ∧ colorForLanguage "Go" "#eb5757" = "#00ADD8"
    ∧ colorForLanguage "Zig" "#f2c94c" = "#f2c94c"
    ∧ (tileElems 100 0 0 3 0 ⟨"Zig", 100⟩).filterMap
        (fun e => match e with
          | SvgElem.swatch _ _ _ _ c => some c
          | _ => none)
      = [colorForLanguage "Zig" (paletteColor 0)] := by
  refine ⟨?_, ?_, ?_, ?_⟩
  · exact colorForLanguage_resolution.1 "gO" "Go" "#eb5757" (by decide)
  · exact colorForLanguage_resolution.2.2.1 "Go" "#00ADD8" "#eb5757" (by decide)
  · exact colorForLanguage_resolution.2.1 "Zig" "#f2c94c" (by decide)
  · exact colorForLanguage_resolution.2.2.2.1 100 0 0 3 0 ⟨"Zig", 100⟩

end LangRank
